import Mathlib

/-!
Verification of the rime-dict-builder build pipeline (`src/build.js`).

JavaScript strings are modelled as lists of Unicode code points (`Str`),
which is exactly what the source code iterates over: `compareFullUnicode`
walks both strings with `String`'s default iterator (`[Symbol.iterator]`),
which yields one code point per step.  Relevant code points:
tab = 9, newline = 10, space = 32, `!` = 33, `=` = 61, `>` = 62.

A dictionary row is `[word, codes, ...extra]`, always at least two fields
(the table loader constructs exactly this shape).
-/

/-- A JavaScript string, as the sequence of its Unicode code points. -/
abbrev Str := List Nat

/-- A dictionary row `[word, codes, ...extra]` (field count ≥ 2, as produced
by `loadTsv`). -/
structure Row where
  word : Str
  codes : Str
  extra : List Str
deriving DecidableEq, Repr

/-- The full field sequence of a row, `[word, codes, ...extra]`. -/
def fieldsOf (r : Row) : List Str :=
  r.word :: r.codes :: r.extra

/-- Embeds `compareFullUnicode` from `src/build.js`: walk both strings by
code point; an exhausted iterator contributes the sentinel `-1`; return the
first nonzero difference `cx - cy`, or `0` if both end together. -/
def compareFullUnicode : Str → Str → Int
  | [], [] => 0
  | [], c :: _ => -1 - (c : Int)
  | c :: _, [] => (c : Int) + 1
  | a :: xs, b :: ys => if (a : Int) - (b : Int) ≠ 0 then (a : Int) - (b : Int) else compareFullUnicode xs ys

/-- Embeds the field loop of `compareRow`: compare fields pairwise up to the
shorter row's field count with `compareFullUnicode`, then fall back to
`x.length - y.length`. -/
def cmpFields : List Str → List Str → Int
  | [], ys => -(ys.length : Int)
  | x :: xs, [] => ((x :: xs).length : Int)
  | x :: xs, y :: ys =>
    if compareFullUnicode x y ≠ 0 then compareFullUnicode x y else cmpFields xs ys

/-- Embeds `compareRow` from `src/build.js`: first the difference of the
words' code-point counts (`[...x[0]].length - [...y[0]].length`), then the
pairwise field loop. -/
def compareRow (x y : Row) : Int :=
  if (x.word.length : Int) - (y.word.length : Int) ≠ 0 then
    (x.word.length : Int) - (y.word.length : Int)
  else cmpFields (fieldsOf x) (fieldsOf y)

/-- Non-strict comparator order used for sorting: `compareRow r s ≤ 0`. -/
def rowLe (r s : Row) : Prop := compareRow r s ≤ 0

instance : DecidableRel rowLe := fun r s => by
  unfold rowLe; infer_instance

/-- Embeds `rows.slice().sort(compareRow)`.  `compareRow` is a consistent
comparator inducing a linear order (proved below), so the sorted permutation
is unique and any correct sort models `Array.prototype.sort`. -/
def jsSort (rows : List Row) : List Row :=
  List.insertionSort rowLe rows

/-- Embeds `Array.prototype.join` with a one-character separator `c`. -/
def joinChar (c : Nat) : List Str → Str
  | [] => []
  | [f] => f
  | f :: g :: fs => f ++ c :: joinChar c (g :: fs)

/-- The code-point substitution of the unspaced transform: space becomes `=`. -/
def subCh (c : Nat) : Nat := if c = 32 then 61 else c

/-- Embeds `row[1].replace(/ /g, "=")`. -/
def spaceToEq (s : Str) : Str := s.map subCh

/-- Embeds the per-row branch of `uniqSortedLines`: when `unspaced` is set the
row is copied with every space in its `codes` field replaced by `=`. -/
def applyUnspaced (unspaced : Bool) (r : Row) : Row :=
  if unspaced then { r with codes := spaceToEq r.codes } else r

/-- Embeds `row.join("\t") + "\n"`. -/
def rowLine (r : Row) : Str := joinChar 9 (fieldsOf r) ++ [10]

/-- The line emitted by `uniqSortedLines` for one row. -/
def emitLine (unspaced : Bool) (r : Row) : Str := rowLine (applyUnspaced unspaced r)

/-- Embeds the `lastLine` loop of `uniqSortedLines` after the first data line
has been emitted: drop each element equal to the previously emitted one. -/
def dedupGo {α : Type} [DecidableEq α] (prev : α) : List α → List α
  | [] => []
  | a :: as => if a = prev then dedupGo prev as else a :: dedupGo a as

/-- Embeds the `lastLine` suppression of `uniqSortedLines`: `lastLine` starts
undefined, so the first line is always emitted. -/
def dedupAdjacent {α : Type} [DecidableEq α] : List α → List α
  | [] => []
  | a :: as => a :: dedupGo a as

/-- The data lines of `uniqSortedLines` (everything after the optional
header): sort a copy, apply the optional unspaced transform, join, and
suppress adjacent duplicates. -/
def uniqSortedDataLines (rows : List Row) (unspaced : Bool) : List Str :=
  dedupAdjacent ((jsSort rows).map (emitLine unspaced))

/-- Embeds `if (header) yield header`: a `null`/`undefined` or empty header
is falsy and emits nothing. -/
def headerLines : Option Str → List Str
  | none => []
  | some h => if h = [] then [] else [h]

/-- Embeds `uniqSortedLines(rows, header, unspaced)` as the full emitted
sequence. -/
def uniqSortedLines (rows : List Row) (header : Option Str) (unspaced : Bool) : List Str :=
  headerLines header ++ uniqSortedDataLines rows unspaced

-- Converter (`makeConverter` in `src/build.js`)

/-- The converter cache, a JS `Map` keyed by description string.  Entries are
only inserted for absent keys, so an association list with newest-first
lookup is an exact model. -/
abbrev Cache := List (Str × Str)

/-- JS `Map.get`/`Map.has` on the association-list model. -/
def lookupC (k : Str) : Cache → Option Str
  | [] => none
  | (k', v) :: rest => if k = k' then some v else lookupC k rest

/-- The two fatal errors of `makeConverter`, each carrying the text that the
thrown message names. -/
inductive ConvErr where
  | unhandled (x : Str)
  | invalid (x sub : Str)
deriving DecidableEq, Repr

/-- The cache-lookup/derive tail of `makeConverter`: return the cached value,
or invoke `derive` (the external parse + derivation, modelled as one function
on the description string), store the result, and report the invocation.
The third component lists the descriptions `derive` was invoked on. -/
def normalHandle (derive : Str → Str) (cache : Cache) (x : Str) : Str × Cache × List Str :=
  match lookupC x cache with
  | some v => (v, cache, [])
  | none => (derive x, (x, derive x) :: cache, [x])

/-- Embeds the closure returned by `makeConverter`.  A description starting
with `!` (33) looks up the rest in `special`; a missing key or — by the JS
falsy test `if (!sub)` — an empty instruction throws "unhandled special 地位",
a `>`-instruction returns its payload directly, an `=`-instruction rewrites
the description, and anything else throws "invalid instruction".  Success
returns the code, the updated cache, and the derive invocations made. -/
def convert (derive : Str → Str) (special : Str → Option Str) (cache : Cache) (x : Str) :
    Except ConvErr (Str × Cache × List Str) :=
  match x with
  | c :: k =>
    if c = 33 then
      match special k with
      | none => .error (.unhandled (c :: k))
      | some [] => .error (.unhandled (c :: k))
      | some (s :: rest) =>
        if s = 62 then .ok (rest, cache, [])
        else if s = 61 then .ok (normalHandle derive cache rest)
        else .error (.invalid (c :: k) (s :: rest))
    else .ok (normalHandle derive cache (c :: k))
  | [] => .ok (normalHandle derive cache [])

/-- Runs the converter closure over a sequence of descriptions, threading the
cache; the first error aborts (a thrown exception propagates). -/
def convertSeq (derive : Str → Str) (special : Str → Option Str) :
    Cache → List Str → Except ConvErr (List Str × Cache × List Str)
  | cache, [] => .ok ([], cache, [])
  | cache, x :: xs =>
    match convert derive special cache x with
    | .error e => .error e
    | .ok (v, c1, i1) =>
      match convertSeq derive special c1 xs with
      | .error e => .error e
      | .ok (vs, c2, i2) => .ok (v :: vs, c2, i1 ++ i2)

/-- The error a conversion raises, computed without the cache (both throws in
`makeConverter` happen before any cache access, from `x` and `special`
alone). -/
def convErrOf (special : Str → Option Str) (x : Str) : Option ConvErr :=
  match x with
  | c :: k =>
    if c = 33 then
      match special k with
      | none => some (.unhandled (c :: k))
      | some [] => some (.unhandled (c :: k))
      | some (s :: rest) =>
        if s = 62 then none
        else if s = 61 then none
        else some (.invalid (c :: k) (s :: rest))
    else none
  | [] => none

/-- `Except.isOk` as a plain boolean. -/
def exceptIsOk {ε α : Type} : Except ε α → Bool
  | .ok _ => true
  | .error _ => false

instance {ε α : Type} [DecidableEq ε] [DecidableEq α] : DecidableEq (Except ε α) := fun a b =>
  match a, b with
  | .ok x, .ok y =>
    if h : x = y then isTrue (by rw [h]) else isFalse fun hc => h (Except.ok.inj hc)
  | .ok _, .error _ => isFalse fun hc => Except.noConfusion hc
  | .error _, .ok _ => isFalse fun hc => Except.noConfusion hc
  | .error e, .error f =>
    if h : e = f then isTrue (by rw [h]) else isFalse fun hc => h (Except.error.inj hc)

-- Table loader (`loadTsv` in `src/build.js`)

/-- Embeds JS `String.prototype.split` with a one-character separator:
always returns at least one (possibly empty) field. -/
def splitOnChar (c : Nat) : Str → List Str
  | [] => [[]]
  | ch :: rest =>
    if ch = c then [] :: splitOnChar c rest
    else
      match splitOnChar c rest with
      | [] => [[ch]]
      | f :: fs => (ch :: f) :: fs

/-- Embeds one loop iteration of `loadTsv`: split the line on tabs into
`[word, input, ...rest]`, convert each space-separated description of
`input`, and rejoin with spaces.  A line with no tab leaves `input`
`undefined` and `input.split(" ")` throws, modelled as `none`. -/
def processLine (conv : Str → Str) (line : Str) : Option Row :=
  match splitOnChar 9 line with
  | word :: input :: rest =>
    some { word := word, codes := joinChar 32 ((splitOnChar 32 input).map conv), extra := rest }
  | _ => none

/-- Embeds `loadTsv` over the list of lines of a file: one row per line, in
file order, aborting the whole load on the first throwing line. -/
def loadTsvLines (conv : Str → Str) : List Str → Option (List Row)
  | [] => some []
  | l :: ls => do
    let r ← processLine conv l
    let rs ← loadTsvLines conv ls
    pure (r :: rs)

-- Spec-side definitions (transcribed from the spec's words, for the
-- refinement claims)

/-- Modelled from the spec, §4.1 step 2: "full-codepoint lexicographic
order": the first differing code point decides; a strict prefix sorts
first. -/
def specCmpStr : Str → Str → Ordering
  | [], [] => .eq
  | [], _ :: _ => .lt
  | _ :: _, [] => .gt
  | a :: xs, b :: ys =>
    if a < b then .lt else if b < a then .gt else specCmpStr xs ys

/-- Modelled from the spec, §4.1 steps 2–3: compare fields pairwise up to the
shorter row's field count; if all compared fields are equal the row with
fewer fields sorts first. -/
def specCmpFields : List Str → List Str → Ordering
  | [], [] => .eq
  | [], _ :: _ => .lt
  | _ :: _, [] => .gt
  | x :: xs, y :: ys =>
    match specCmpStr x y with
    | .eq => specCmpFields xs ys
    | o => o

/-- Modelled from the spec, §4.1: compare words by code-point count (fewer
first), then fields pairwise, then field count. -/
def specCmpRow (x y : Row) : Ordering :=
  if x.word.length < y.word.length then .lt
  else if y.word.length < x.word.length then .gt
  else specCmpFields (fieldsOf x) (fieldsOf y)

/-- The sign of an integer comparator result as an `Ordering`. -/
def intToOrdering (i : Int) : Ordering :=
  if i < 0 then .lt else if i = 0 then .eq else .gt

/-- UTF-16 encoding of one code point (surrogate pair above `0xFFFF`), used
to state that the comparator is not code-unit order. -/
def utf16Units (c : Nat) : List Nat :=
  if c < 65536 then [c] else [55296 + (c - 65536) / 1024, 56320 + (c - 65536) % 1024]

/-- A string as its UTF-16 code-unit sequence. -/
def utf16Str (s : Str) : Str := (s.map utf16Units).flatten

/-- Modelled from the spec, §8 "word = the text before the first tab, extra =
the remaining tab-separated fields, codes = split on spaces, convert each,
rejoin": the row the Table Loader is specified to yield for a line. -/
def specRowOf (conv : Str → Str) (line : Str) : Row :=
  let rest := splitOnChar 9 ((line.dropWhile (· ≠ 9)).drop 1)
  { word := line.takeWhile (· ≠ 9)
  , codes := joinChar 32 ((splitOnChar 32 (rest.headD [])).map conv)
  , extra := rest.tail }

-- Concrete stubs used by witnesses

/-- A concrete external derivation stub. -/
def deriveStub : Str → Str := fun d => 100 :: d

/-- A concrete override table: `K`(75) ↦ `>X`, `L`(76) ↦ `=M`, `N`(78) ↦ an
invalid instruction, `O`(79) ↦ the empty instruction. -/
def specialStub : Str → Option Str := fun k =>
  if k = [75] then some (62 :: [88])
  else if k = [76] then some (61 :: [77])
  else if k = [78] then some [70]
  else if k = [79] then some []
  else none

/-- Tab-freeness of every field of a row (the source tables cannot contain a
tab inside a field, since tab is the field separator). -/
def rowTabFree (r : Row) : Prop :=
  (9 : Nat) ∉ r.word ∧ (9 : Nat) ∉ r.codes ∧ ∀ e ∈ r.extra, (9 : Nat) ∉ e

instance (r : Row) : Decidable (rowTabFree r) := by
  unfold rowTabFree; infer_instance

-- Comparator sign lemmas

theorem cfu_eq_zero_iff : ∀ x y : Str, compareFullUnicode x y = 0 ↔ x = y := by
  intro x
  induction x with
  | nil =>
    intro y
    cases y with
    | nil => simp [compareFullUnicode]
    | cons c ys => simp [compareFullUnicode]; omega
  | cons a xs ih =>
    intro y
    cases y with
    | nil => simp [compareFullUnicode]; omega
    | cons b ys =>
      by_cases hab : (a : Int) - (b : Int) ≠ 0
      · have : a ≠ b := by omega
        simp [compareFullUnicode, hab, this]
      · have : a = b := by omega
        simp [compareFullUnicode, hab, this, ih]

theorem cfu_neg : ∀ x y : Str, compareFullUnicode y x = -compareFullUnicode x y := by
  intro x
  induction x with
  | nil =>
    intro y
    cases y with
    | nil => simp [compareFullUnicode]
    | cons c ys => simp [compareFullUnicode]
  | cons a xs ih =>
    intro y
    cases y with
    | nil => simp [compareFullUnicode]; omega
    | cons b ys =>
      by_cases hab : (a : Int) - (b : Int) ≠ 0
      · have hba : (b : Int) - (a : Int) ≠ 0 := by omega
        simp [compareFullUnicode, hab, hba]
      · have hba : ¬((b : Int) - (a : Int) ≠ 0) := by omega
        simp [compareFullUnicode, hab, hba, ih]

theorem cfu_trans_lt : ∀ x y z : Str,
    compareFullUnicode x y < 0 → compareFullUnicode y z < 0 → compareFullUnicode x z < 0 := by
  intro x
  induction x with
  | nil =>
    intro y z hxy hyz
    cases z with
    | nil =>
      exfalso
      cases y with
      | nil => simp [compareFullUnicode] at hyz
      | cons b ys => simp [compareFullUnicode] at hyz; omega
    | cons c zs => simp [compareFullUnicode]; omega
  | cons a xs ih =>
    intro y z hxy hyz
    cases y with
    | nil => exfalso; simp [compareFullUnicode] at hxy; omega
    | cons b ys =>
      cases z with
      | nil => exfalso; simp [compareFullUnicode] at hyz; omega
      | cons c zs =>
        by_cases hab : (a : Int) - (b : Int) ≠ 0
        · simp [compareFullUnicode, hab] at hxy
          by_cases hbc : (b : Int) - (c : Int) ≠ 0
          · simp [compareFullUnicode, hbc] at hyz
            have hac : (a : Int) - (c : Int) ≠ 0 := by omega
            simp [compareFullUnicode, hac]
            omega
          · have hac : (a : Int) - (c : Int) ≠ 0 := by omega
            simp [compareFullUnicode, hac]
            omega
        · simp [compareFullUnicode, hab] at hxy
          by_cases hbc : (b : Int) - (c : Int) ≠ 0
          · simp [compareFullUnicode, hbc] at hyz
            have hac : (a : Int) - (c : Int) ≠ 0 := by omega
            simp [compareFullUnicode, hac]
            omega
          · simp [compareFullUnicode, hbc] at hyz
            have hac : ¬((a : Int) - (c : Int) ≠ 0) := by omega
            simp [compareFullUnicode, hac]
            exact ih ys zs hxy hyz

theorem cmpFields_eq_zero_iff : ∀ x y : List Str, cmpFields x y = 0 ↔ x = y := by
  intro x
  induction x with
  | nil =>
    intro y
    cases y with
    | nil => simp [cmpFields]
    | cons g gs => simp [cmpFields]; omega
  | cons f fs ih =>
    intro y
    cases y with
    | nil => simp [cmpFields]; omega
    | cons g gs =>
      by_cases hfg : compareFullUnicode f g ≠ 0
      · have : f ≠ g := fun h => hfg ((cfu_eq_zero_iff f g).2 h)
        simp [cmpFields, hfg, this]
      · have hfg' : f = g := (cfu_eq_zero_iff f g).1 (by omega)
        subst hfg'
        have hff : compareFullUnicode f f = 0 := (cfu_eq_zero_iff f f).2 rfl
        simp [cmpFields, hff, ih]

theorem cmpFields_neg : ∀ x y : List Str, cmpFields y x = -cmpFields x y := by
  intro x
  induction x with
  | nil =>
    intro y
    cases y with
    | nil => simp [cmpFields]
    | cons g gs => simp [cmpFields]
  | cons f fs ih =>
    intro y
    cases y with
    | nil => simp [cmpFields]
    | cons g gs =>
      by_cases hfg : compareFullUnicode f g ≠ 0
      · have hgf : compareFullUnicode g f ≠ 0 := by
          rw [cfu_neg]; omega
        simp [cmpFields, hfg, hgf, cfu_neg f g]
      · have hgf : ¬(compareFullUnicode g f ≠ 0) := by
          rw [cfu_neg]; omega
        simp [cmpFields, hfg, hgf, ih]

theorem cmpFields_trans_lt : ∀ x y z : List Str,
    cmpFields x y < 0 → cmpFields y z < 0 → cmpFields x z < 0 := by
  intro x
  induction x with
  | nil =>
    intro y z hxy hyz
    cases z with
    | nil =>
      exfalso
      cases y with
      | nil => simp [cmpFields] at hyz
      | cons g gs => simp [cmpFields] at hyz; omega
    | cons h hs => simp [cmpFields]; omega
  | cons f fs ih =>
    intro y z hxy hyz
    cases y with
    | nil => exfalso; simp [cmpFields] at hxy; omega
    | cons g gs =>
      cases z with
      | nil => exfalso; simp [cmpFields] at hyz; omega
      | cons h hs =>
        by_cases hfg : compareFullUnicode f g ≠ 0
        · simp [cmpFields, hfg] at hxy
          by_cases hgh : compareFullUnicode g h ≠ 0
          · simp [cmpFields, hgh] at hyz
            have hfh : compareFullUnicode f h < 0 := cfu_trans_lt f g h hxy hyz
            simp [cmpFields, show compareFullUnicode f h ≠ 0 by omega]
            exact hfh
          · have hgh' : g = h := (cfu_eq_zero_iff g h).1 (by omega)
            subst hgh'
            simp [cmpFields, hfg]
            exact hxy
        · have hfg' : f = g := (cfu_eq_zero_iff f g).1 (by omega)
          subst hfg'
          simp [cmpFields, hfg] at hxy
          by_cases hgh : compareFullUnicode f h ≠ 0
          · simp [cmpFields, hgh] at hyz ⊢
            exact hyz
          · simp [cmpFields, hgh] at hyz ⊢
            exact ih gs hs hxy hyz

theorem fieldsOf_inj {r s : Row} (h : fieldsOf r = fieldsOf s) : r = s := by
  cases r; cases s
  simp [fieldsOf] at h
  simp [h.1, h.2.1, h.2.2]

theorem compareRow_eq_zero_iff (x y : Row) : compareRow x y = 0 ↔ x = y := by
  unfold compareRow
  by_cases hd : (x.word.length : Int) - (y.word.length : Int) ≠ 0
  · rw [if_pos hd]
    constructor
    · intro h; exact absurd h hd
    · intro h; subst h; omega
  · rw [if_neg hd, cmpFields_eq_zero_iff]
    constructor
    · exact fieldsOf_inj
    · intro h; subst h; rfl

theorem compareRow_neg (x y : Row) : compareRow y x = -compareRow x y := by
  unfold compareRow
  by_cases hd : (x.word.length : Int) - (y.word.length : Int) ≠ 0
  · have hd' : (y.word.length : Int) - (x.word.length : Int) ≠ 0 := by omega
    rw [if_pos hd, if_pos hd']
    omega
  · have hd' : ¬((y.word.length : Int) - (x.word.length : Int) ≠ 0) := by omega
    rw [if_neg hd, if_neg hd', cmpFields_neg]

theorem compareRow_trans_lt (x y z : Row) :
    compareRow x y < 0 → compareRow y z < 0 → compareRow x z < 0 := by
  unfold compareRow
  intro hxy hyz
  by_cases hd1 : (x.word.length : Int) - (y.word.length : Int) ≠ 0
  · rw [if_pos hd1] at hxy
    by_cases hd2 : (y.word.length : Int) - (z.word.length : Int) ≠ 0
    · rw [if_pos hd2] at hyz
      rw [if_pos (show (x.word.length : Int) - (z.word.length : Int) ≠ 0 by omega)]
      omega
    · rw [if_pos (show (x.word.length : Int) - (z.word.length : Int) ≠ 0 by omega)]
      omega
  · rw [if_neg hd1] at hxy
    by_cases hd2 : (y.word.length : Int) - (z.word.length : Int) ≠ 0
    · rw [if_pos hd2] at hyz
      rw [if_pos (show (x.word.length : Int) - (z.word.length : Int) ≠ 0 by omega)]
      omega
    · rw [if_neg hd2] at hyz
      rw [if_neg (show ¬((x.word.length : Int) - (z.word.length : Int) ≠ 0) by omega)]
      exact cmpFields_trans_lt _ _ _ hxy hyz

theorem compareRow_le_antisymm {x y : Row} (h1 : compareRow x y ≤ 0) (h2 : compareRow y x ≤ 0) :
    x = y := by
  have := compareRow_neg x y
  exact (compareRow_eq_zero_iff x y).1 (by omega)

theorem rowLe_total (x y : Row) : rowLe x y ∨ rowLe y x := by
  unfold rowLe
  have := compareRow_neg x y
  omega

theorem rowLe_trans {x y z : Row} (hxy : rowLe x y) (hyz : rowLe y z) : rowLe x z := by
  unfold rowLe at *
  rcases lt_or_eq_of_le hxy with h | h
  · rcases lt_or_eq_of_le hyz with h' | h'
    · exact le_of_lt (compareRow_trans_lt x y z h h')
    · have : y = z := (compareRow_eq_zero_iff y z).1 h'
      subst this; exact hxy
  · have : x = y := (compareRow_eq_zero_iff x y).1 h
    subst this; exact hyz

theorem jsSort_sorted (rows : List Row) : (jsSort rows).Pairwise rowLe := by
  haveI : IsTotal Row rowLe := ⟨rowLe_total⟩
  haveI : IsTrans Row rowLe := ⟨fun _ _ _ => rowLe_trans⟩
  exact List.sorted_insertionSort rowLe rows

theorem jsSort_perm (rows : List Row) : (jsSort rows).Perm rows :=
  List.perm_insertionSort rowLe rows

theorem intToOrdering_of_lt {i : Int} (h : i < 0) : intToOrdering i = .lt := by
  unfold intToOrdering
  rw [if_pos h]

theorem intToOrdering_of_gt {i : Int} (h : 0 < i) : intToOrdering i = .gt := by
  unfold intToOrdering
  rw [if_neg (by omega), if_neg (by omega)]

theorem cfu_ord_spec : ∀ x y : Str, intToOrdering (compareFullUnicode x y) = specCmpStr x y := by
  intro x
  induction x with
  | nil =>
    intro y
    cases y with
    | nil => simp [compareFullUnicode, specCmpStr, intToOrdering]
    | cons c ys =>
      rw [show compareFullUnicode [] (c :: ys) = -1 - (c : Int) from rfl]
      rw [intToOrdering_of_lt (by omega)]
      rfl
  | cons a xs ih =>
    intro y
    cases y with
    | nil =>
      rw [show compareFullUnicode (a :: xs) [] = (a : Int) + 1 from rfl]
      rw [intToOrdering_of_gt (by omega)]
      rfl
    | cons b ys =>
      simp only [compareFullUnicode, specCmpStr]
      rcases Nat.lt_trichotomy a b with hab | hab | hab
      · rw [if_pos (show (a : Int) - b ≠ 0 by omega)]
        rw [intToOrdering_of_lt (by omega), if_pos hab]
      · subst hab
        rw [if_neg (show ¬((a : Int) - a ≠ 0) by omega)]
        rw [if_neg (by omega), if_neg (by omega)]
        exact ih ys
      · rw [if_pos (show (a : Int) - b ≠ 0 by omega)]
        rw [intToOrdering_of_gt (by omega), if_neg (by omega), if_pos hab]

theorem cmpFields_ord_spec : ∀ x y : List Str, intToOrdering (cmpFields x y) = specCmpFields x y := by
  intro x
  induction x with
  | nil =>
    intro y
    cases y with
    | nil => simp [cmpFields, specCmpFields, intToOrdering]
    | cons g gs =>
      rw [show cmpFields [] (g :: gs) = -(((g :: gs).length : Nat) : Int) from rfl]
      rw [intToOrdering_of_lt (by rw [neg_lt_zero]; exact_mod_cast Nat.succ_pos gs.length)]
      rfl
  | cons f fs ih =>
    intro y
    cases y with
    | nil =>
      rw [show cmpFields (f :: fs) [] = (((f :: fs).length : Nat) : Int) from rfl]
      rw [intToOrdering_of_gt (by exact_mod_cast Nat.succ_pos fs.length)]
      rfl
    | cons g gs =>
      simp only [cmpFields, specCmpFields]
      by_cases hfg : compareFullUnicode f g ≠ 0
      · rw [if_pos hfg]
        have hs := cfu_ord_spec f g
        rcases Int.lt_trichotomy (compareFullUnicode f g) 0 with h | h | h
        · rw [intToOrdering_of_lt h] at hs ⊢
          rw [← hs]
        · exact absurd h hfg
        · rw [intToOrdering_of_gt h] at hs ⊢
          rw [← hs]
      · rw [if_neg hfg]
        have h0 : compareFullUnicode f g = 0 := by omega
        have hs := cfu_ord_spec f g
        rw [h0] at hs
        rw [show intToOrdering 0 = .eq from rfl] at hs
        rw [← hs]
        exact ih gs

theorem compareRow_ord_spec (x y : Row) : intToOrdering (compareRow x y) = specCmpRow x y := by
  unfold compareRow specCmpRow
  by_cases hd : (x.word.length : Int) - (y.word.length : Int) ≠ 0
  · rw [if_pos hd]
    rcases Nat.lt_trichotomy x.word.length y.word.length with h | h | h
    · rw [intToOrdering_of_lt (by omega), if_pos h]
    · exfalso; omega
    · rw [intToOrdering_of_gt (by omega), if_neg (by omega), if_pos h]
  · rw [if_neg hd, if_neg (by omega), if_neg (by omega)]
    exact cmpFields_ord_spec _ _

/-- C2: `compareRow` implements exactly the spec's three-step order — word
code-point count first, then pairwise full-codepoint lexicographic field
comparison with strict prefixes first, then field count — and on a
supplementary-plane versus basic-plane first difference it orders by
code-point value (the string `"～"` `[0xFF5E]` sorts before `[0x20000]`),
which disagrees with UTF-16 code-unit order (on code units the same pair
compares the other way). -/
theorem compareRow_implements_spec_order : ∀ x y : Row,
    intToOrdering (compareRow x y) = specCmpRow x y ∧
      intToOrdering (compareFullUnicode [0xFF5E] [0x20000]) = Ordering.lt ∧
      specCmpStr (utf16Str [0xFF5E]) (utf16Str [0x20000]) = Ordering.gt :=
  fun x y => ⟨compareRow_ord_spec x y, by decide, by decide⟩

/-- C7: `compareRow` totally orders rows: zero exactly on identical field
sequences, antisymmetric under argument swap, and transitive. -/
theorem compareRow_total_order : ∀ x y z : Row,
    (compareRow x y = 0 ↔ x = y) ∧ compareRow y x = -compareRow x y ∧
      (compareRow x y < 0 → compareRow y z < 0 → compareRow x z < 0) :=
  fun x y z => ⟨compareRow_eq_zero_iff x y, compareRow_neg x y, compareRow_trans_lt x y z⟩

/-- Witness for C7: the transitivity hypotheses discharged at concrete rows. -/
theorem compareRow_total_order_witness :
    compareRow ⟨[97], [98], []⟩ ⟨[97], [99], []⟩ < 0 ∧
      compareRow ⟨[97], [99], []⟩ ⟨[97], [100], []⟩ < 0 ∧
      compareRow ⟨[97], [98], []⟩ ⟨[97], [100], []⟩ < 0 :=
  ⟨by decide, by decide,
    (compareRow_total_order ⟨[97], [98], []⟩ ⟨[97], [99], []⟩ ⟨[97], [100], []⟩).2.2
      (by decide) (by decide)⟩

-- Adjacent-dedup machinery

theorem mem_dedupGo {α : Type} [DecidableEq α] {x : α} :
    ∀ (p : α) (l : List α), x ∈ dedupGo p l → x ∈ l := by
  intro p l
  induction l generalizing p with
  | nil => intro h; simp [dedupGo] at h
  | cons a as ih =>
    intro h
    by_cases hap : a = p
    · rw [show dedupGo p (a :: as) = dedupGo p as by simp [dedupGo, hap]] at h
      exact List.mem_cons_of_mem _ (ih p h)
    · rw [show dedupGo p (a :: as) = a :: dedupGo a as by simp [dedupGo, hap]] at h
      rcases List.mem_cons.1 h with h | h
      · simp [h]
      · exact List.mem_cons_of_mem _ (ih a h)

theorem mem_dedupGo_of_mem {α : Type} [DecidableEq α] {x : α} :
    ∀ (p : α) (l : List α), x ∈ l → x = p ∨ x ∈ dedupGo p l := by
  intro p l
  induction l generalizing p with
  | nil => intro h; simp at h
  | cons a as ih =>
    intro h
    by_cases hap : a = p
    · subst hap
      rcases List.mem_cons.1 h with h | h
      · exact Or.inl h
      · rw [show dedupGo a (a :: as) = dedupGo a as by simp [dedupGo]]
        exact ih a h
    · rw [show dedupGo p (a :: as) = a :: dedupGo a as by simp [dedupGo, hap]]
      rcases List.mem_cons.1 h with h | h
      · exact Or.inr (by simp [h])
      · rcases ih a h with h' | h'
        · exact Or.inr (by simp [h'])
        · exact Or.inr (List.mem_cons_of_mem _ h')

theorem mem_dedupAdjacent {α : Type} [DecidableEq α] {x : α} (l : List α) :
    x ∈ dedupAdjacent l ↔ x ∈ l := by
  cases l with
  | nil => simp [dedupAdjacent]
  | cons a as =>
    rw [show dedupAdjacent (a :: as) = a :: dedupGo a as from rfl]
    constructor
    · intro h
      rcases List.mem_cons.1 h with h | h
      · simp [h]
      · exact List.mem_cons_of_mem _ (mem_dedupGo a as h)
    · intro h
      rcases List.mem_cons.1 h with h | h
      · simp [h]
      · rcases mem_dedupGo_of_mem a as h with h' | h'
        · simp [h']
        · exact List.mem_cons_of_mem _ h'

theorem dedupGo_nodup {α : Type} [DecidableEq α] {le : α → α → Prop}
    (hanti : ∀ a b, le a b → le b a → a = b) :
    ∀ (l : List α) (p : α), (p :: l).Pairwise le → (dedupGo p l).Nodup ∧ p ∉ dedupGo p l := by
  intro l
  induction l with
  | nil => intro p _; simp [dedupGo]
  | cons a as ih =>
    intro p hp
    by_cases hap : a = p
    · subst hap
      rw [show dedupGo a (a :: as) = dedupGo a as by simp [dedupGo]]
      exact ih a (List.Pairwise.sublist (List.sublist_cons_self a (a :: as)) hp)
    · rw [show dedupGo p (a :: as) = a :: dedupGo a as by simp [dedupGo, hap]]
      have hpa : (a :: as).Pairwise le :=
        List.Pairwise.sublist (List.sublist_cons_self p (a :: as)) hp
      obtain ⟨h1, h2⟩ := ih a hpa
      refine ⟨List.nodup_cons.2 ⟨h2, h1⟩, ?_⟩
      intro hmem
      rcases List.mem_cons.1 hmem with h | h
      · exact hap h.symm
      · have hpin : p ∈ as := mem_dedupGo a as h
        have hup : le p a := (List.pairwise_cons.1 hp).1 a (by simp)
        have hdown : le a p := (List.pairwise_cons.1 hpa).1 p hpin
        exact hap (hanti a p hdown hup)

theorem dedupAdjacent_nodup {α : Type} [DecidableEq α] {le : α → α → Prop}
    (hanti : ∀ a b, le a b → le b a → a = b) :
    ∀ l : List α, l.Pairwise le → (dedupAdjacent l).Nodup := by
  intro l hl
  cases l with
  | nil => simp [dedupAdjacent]
  | cons a as =>
    obtain ⟨h1, h2⟩ := dedupGo_nodup hanti as a hl
    exact List.nodup_cons.2 ⟨h2, h1⟩

theorem dedupGo_map {α β : Type} [DecidableEq α] [DecidableEq β] (f : α → β) :
    ∀ (l : List α) (p : α),
      (∀ a ∈ p :: l, ∀ b ∈ p :: l, f a = f b → a = b) →
      dedupGo (f p) (l.map f) = (dedupGo p l).map f := by
  intro l
  induction l with
  | nil => intro p _; simp [dedupGo]
  | cons a as ih =>
    intro p hinj
    by_cases hap : a = p
    · subst hap
      have hsub : ∀ x, x ∈ a :: as → x ∈ a :: a :: as := by
        intro x hx
        rcases List.mem_cons.1 hx with h | h
        · simp [h]
        · simp [h]
      rw [List.map_cons,
        show dedupGo (f a) (f a :: List.map f as) = dedupGo (f a) (List.map f as)
          by simp [dedupGo],
        show dedupGo a (a :: as) = dedupGo a as by simp [dedupGo]]
      exact ih a fun x hx y hy => hinj x (hsub x hx) y (hsub y hy)
    · have hfap : f a ≠ f p := fun h => hap (hinj a (by simp) p (by simp) h)
      have hsub : ∀ x, x ∈ a :: as → x ∈ p :: a :: as := by
        intro x hx
        rcases List.mem_cons.1 hx with h | h
        · simp [h]
        · simp [h]
      rw [List.map_cons,
        show dedupGo (f p) (f a :: List.map f as) = f a :: dedupGo (f a) (List.map f as)
          by simp [dedupGo, hfap],
        show dedupGo p (a :: as) = a :: dedupGo a as by simp [dedupGo, hap],
        List.map_cons]
      rw [ih a fun x hx y hy => hinj x (hsub x hx) y (hsub y hy)]

theorem dedupAdjacent_map {α β : Type} [DecidableEq α] [DecidableEq β] (f : α → β) :
    ∀ l : List α, (∀ a ∈ l, ∀ b ∈ l, f a = f b → a = b) →
      dedupAdjacent (l.map f) = (dedupAdjacent l).map f := by
  intro l hinj
  cases l with
  | nil => simp [dedupAdjacent]
  | cons a as =>
    rw [List.map_cons,
      show dedupAdjacent (f a :: List.map f as) = f a :: dedupGo (f a) (List.map f as) from rfl,
      show dedupAdjacent (a :: as) = a :: dedupGo a as from rfl, List.map_cons]
    rw [dedupGo_map f as a hinj]

-- Injectivity of line rendering on tab-free rows

theorem append_cons_inj (c : Nat) :
    ∀ (x y u v : Str), c ∉ x → c ∉ y → x ++ c :: u = y ++ c :: v → x = y ∧ u = v := by
  intro x
  induction x with
  | nil =>
    intro y u v _ hy h
    cases y with
    | nil => simpa using h
    | cons b ys =>
      exfalso
      rw [List.nil_append, List.cons_append] at h
      have h1 : c = b := (List.cons.injEq _ _ _ _ ▸ h).1
      exact hy (List.mem_cons.2 (Or.inl h1))
  | cons a xs ih =>
    intro y u v hx hy h
    cases y with
    | nil =>
      exfalso
      rw [List.nil_append, List.cons_append] at h
      have h1 : a = c := (List.cons.injEq _ _ _ _ ▸ h).1
      exact hx (List.mem_cons.2 (Or.inl h1.symm))
    | cons b ys =>
      rw [List.cons_append, List.cons_append] at h
      have h1 := (List.cons.injEq _ _ _ _ ▸ h).1
      have h2 := (List.cons.injEq _ _ _ _ ▸ h).2
      obtain ⟨h3, h4⟩ := ih ys u v (fun hc => hx (List.mem_cons_of_mem _ hc))
        (fun hc => hy (List.mem_cons_of_mem _ hc)) h2
      exact ⟨by rw [h1, h3], h4⟩

theorem joinChar_inj (c : Nat) :
    ∀ (fs gs : List Str), fs ≠ [] → gs ≠ [] →
      (∀ f ∈ fs, c ∉ f) → (∀ g ∈ gs, c ∉ g) → joinChar c fs = joinChar c gs → fs = gs := by
  intro fs
  induction fs with
  | nil => intro gs h; exact absurd rfl h
  | cons f fs' ih =>
    intro gs _ hgs hffree hgfree h
    cases gs with
    | nil => exact absurd rfl hgs
    | cons g gs' =>
      cases fs' with
      | nil =>
        cases gs' with
        | nil =>
          rw [show joinChar c [f] = f from rfl, show joinChar c [g] = g from rfl] at h
          rw [h]
        | cons g2 gs'' =>
          exfalso
          rw [show joinChar c [f] = f from rfl,
            show joinChar c (g :: g2 :: gs'') = g ++ c :: joinChar c (g2 :: gs'') from rfl] at h
          exact hffree f (by simp) (by rw [h]; simp)
      | cons f2 fs'' =>
        cases gs' with
        | nil =>
          exfalso
          rw [show joinChar c (f :: f2 :: fs'') = f ++ c :: joinChar c (f2 :: fs'') from rfl,
            show joinChar c [g] = g from rfl] at h
          exact hgfree g (by simp) (by rw [← h]; simp)
        | cons g2 gs'' =>
          rw [show joinChar c (f :: f2 :: fs'') = f ++ c :: joinChar c (f2 :: fs'') from rfl,
            show joinChar c (g :: g2 :: gs'') = g ++ c :: joinChar c (g2 :: gs'') from rfl] at h
          obtain ⟨h1, h2⟩ := append_cons_inj c f g _ _ (hffree f (by simp)) (hgfree g (by simp)) h
          have h3 := ih (g2 :: gs'') (by simp) (by simp)
            (fun x hx => hffree x (List.mem_cons_of_mem _ hx))
            (fun x hx => hgfree x (List.mem_cons_of_mem _ hx)) h2
          rw [h1, h3]

theorem spaceToEq_tabFree {s : Str} (h : (9 : Nat) ∉ s) : (9 : Nat) ∉ spaceToEq s := by
  intro hmem
  rcases List.mem_map.1 hmem with ⟨a, ha, hae⟩
  unfold subCh at hae
  by_cases h32 : a = 32
  · rw [if_pos h32] at hae
    exact absurd hae (by decide)
  · rw [if_neg h32] at hae
    exact h (hae ▸ ha)

theorem spaceToEq_inj {u v : Str} (hu : (61 : Nat) ∉ u) (hv : (61 : Nat) ∉ v)
    (h : spaceToEq u = spaceToEq v) : u = v := by
  induction u generalizing v with
  | nil =>
    cases v with
    | nil => rfl
    | cons b vs => simp [spaceToEq] at h
  | cons a us ih =>
    cases v with
    | nil => simp [spaceToEq] at h
    | cons b vs =>
      rw [show spaceToEq (a :: us) = subCh a :: spaceToEq us from rfl,
        show spaceToEq (b :: vs) = subCh b :: spaceToEq vs from rfl] at h
      have h1 := (List.cons.injEq _ _ _ _ ▸ h).1
      have h2 := (List.cons.injEq _ _ _ _ ▸ h).2
      have ha : a = b := by
        unfold subCh at h1
        by_cases h32a : a = 32
        · by_cases h32b : b = 32
          · rw [h32a, h32b]
          · rw [if_pos h32a, if_neg h32b] at h1
            exact absurd (List.mem_cons.2 (Or.inl h1)) hv
        · by_cases h32b : b = 32
          · rw [if_neg h32a, if_pos h32b] at h1
            exact absurd (List.mem_cons.2 (Or.inl h1.symm)) hu
          · rw [if_neg h32a, if_neg h32b] at h1
            exact h1
      subst ha
      rw [ih (fun hm => hu (List.mem_cons_of_mem _ hm)) (fun hm => hv (List.mem_cons_of_mem _ hm))
        h2]

theorem applyUnspaced_tabFree {u : Bool} {r : Row} (h : rowTabFree r) :
    rowTabFree (applyUnspaced u r) := by
  cases u with
  | false => exact h
  | true => exact ⟨h.1, spaceToEq_tabFree h.2.1, h.2.2⟩

theorem rowTabFree_fields {r : Row} (h : rowTabFree r) : ∀ f ∈ fieldsOf r, (9 : Nat) ∉ f := by
  intro f hf
  obtain ⟨h1, h2, h3⟩ := h
  rcases List.mem_cons.1 hf with hh | hf
  · rw [hh]; exact h1
  · rcases List.mem_cons.1 hf with hh | hf
    · rw [hh]; exact h2
    · exact h3 f hf

theorem emitLine_inj {u : Bool} {r s : Row} (hr : rowTabFree r) (hs : rowTabFree s)
    (h61 : u = true → (61 : Nat) ∉ r.codes ∧ (61 : Nat) ∉ s.codes) :
    emitLine u r = emitLine u s → r = s := by
  intro h
  unfold emitLine rowLine at h
  have h' : joinChar 9 (fieldsOf (applyUnspaced u r)) = joinChar 9 (fieldsOf (applyUnspaced u s)) :=
    List.append_cancel_right h
  have hfields := joinChar_inj 9 _ _ (by simp [fieldsOf]) (by simp [fieldsOf])
    (rowTabFree_fields (applyUnspaced_tabFree hr)) (rowTabFree_fields (applyUnspaced_tabFree hs))
    h'
  have heq := fieldsOf_inj hfields
  cases u with
  | false => exact heq
  | true =>
    obtain ⟨hr61, hs61⟩ := h61 rfl
    have heq' : ({ r with codes := spaceToEq r.codes } : Row) =
        { s with codes := spaceToEq s.codes } := heq
    have hw' := congrArg Row.word heq'
    have he' := congrArg Row.extra heq'
    have hc' := congrArg Row.codes heq'
    have hw : r.word = s.word := hw'
    have he : r.extra = s.extra := he'
    have hc : spaceToEq r.codes = spaceToEq s.codes := hc'
    have hcc := spaceToEq_inj hr61 hs61 hc
    cases r; cases s
    simp only [Row.mk.injEq]
    exact ⟨hw, hcc, he⟩

/-- C1 is false as stated: with the unspaced transform, the rows
`["x", "a b"]`, `["x", "a+b"]`, `["x", "a=b"]` sort in that order
(space = 32 < `+` = 43 < `=` = 61 in the codes field), the transform maps
the first and the last to the same line `"x\ta=b\n"`, and the middle row
separates them, so the adjacent-only suppression emits two equal data
lines. -/
theorem uniqSortedLines_dedup_counterexample :
    ¬ (uniqSortedDataLines
        [⟨[120], [97, 32, 98], []⟩, ⟨[120], [97, 43, 98], []⟩, ⟨[120], [97, 61, 98], []⟩]
        true).Nodup := by decide

/-- C1 (amended): for rows whose fields are tab-free and — when the unspaced
transform is applied — whose codes field contains no `=`, the emitted data
lines of the Dedup/Sort Stage contain no two equal lines, and rows differing
only in an extra field produce distinct lines, both present in the output. -/
theorem uniqSortedLines_dedup_amended (rows : List Row) (unspaced : Bool)
    (htab : ∀ r ∈ rows, rowTabFree r)
    (h61 : unspaced = true → ∀ r ∈ rows, (61 : Nat) ∉ r.codes) :
    (uniqSortedDataLines rows unspaced).Nodup ∧
      ∀ r s, r ∈ rows → s ∈ rows → r.word = s.word → r.codes = s.codes → r.extra ≠ s.extra →
        emitLine unspaced r ≠ emitLine unspaced s ∧
          emitLine unspaced r ∈ uniqSortedDataLines rows unspaced ∧
          emitLine unspaced s ∈ uniqSortedDataLines rows unspaced := by
  have hperm := jsSort_perm rows
  have htab' : ∀ r ∈ jsSort rows, rowTabFree r := fun r hr => htab r (hperm.mem_iff.1 hr)
  have h61' : ∀ r ∈ jsSort rows, unspaced = true → (61 : Nat) ∉ r.codes :=
    fun r hr hu => h61 hu r (hperm.mem_iff.1 hr)
  have hinj : ∀ a ∈ jsSort rows, ∀ b ∈ jsSort rows,
      emitLine unspaced a = emitLine unspaced b → a = b := by
    intro a ha b hb hab
    exact emitLine_inj (htab' a ha) (htab' b hb) (fun hu => ⟨h61' a ha hu, h61' b hb hu⟩) hab
  constructor
  · unfold uniqSortedDataLines
    rw [dedupAdjacent_map (emitLine unspaced) (jsSort rows) hinj]
    refine List.Nodup.map_on ?_ ?_
    · intro x hx y hy
      exact hinj x ((mem_dedupAdjacent _).1 hx) y ((mem_dedupAdjacent _).1 hy)
    · exact dedupAdjacent_nodup (fun a b h1 h2 => compareRow_le_antisymm h1 h2) (jsSort rows)
        (jsSort_sorted rows)
  · intro r s hrm hsm hw hc he
    refine ⟨?_, ?_, ?_⟩
    · intro heq
      have hrs : r = s :=
        emitLine_inj (htab r hrm) (htab s hsm) (fun hu => ⟨h61 hu r hrm, h61 hu s hsm⟩) heq
      exact he (congrArg Row.extra hrs)
    · unfold uniqSortedDataLines
      rw [mem_dedupAdjacent]
      exact List.mem_map_of_mem _ (hperm.mem_iff.2 hrm)
    · unfold uniqSortedDataLines
      rw [mem_dedupAdjacent]
      exact List.mem_map_of_mem _ (hperm.mem_iff.2 hsm)

/-- Witness for the amended C1: its hypotheses discharged on concrete rows. -/
theorem uniqSortedLines_dedup_amended_witness :
    (uniqSortedDataLines [⟨[97], [98, 32, 99], []⟩, ⟨[100], [101], []⟩] true).Nodup :=
  (uniqSortedLines_dedup_amended [⟨[97], [98, 32, 99], []⟩, ⟨[100], [101], []⟩] true
    (by decide) (fun _ => by decide)).1

/-- C9: the Dedup/Sort Stage never alters the caller's rows — the sorted copy
is a permutation of the input — and with the unspaced flag set every emitted
data line is the tab-join of some input row with only its codes field
rewritten by space→`=` (word and extra fields byte-identical), while in the
plain variant every input row's unmodified line is present. -/
theorem uniqSortedLines_frame (rows : List Row) (header : Option Str) :
    (jsSort rows).Perm rows ∧
      uniqSortedLines rows header true = headerLines header ++ uniqSortedDataLines rows true ∧
      (∀ line ∈ uniqSortedDataLines rows true,
        ∃ r, r ∈ rows ∧ line = joinChar 9 (r.word :: spaceToEq r.codes :: r.extra) ++ [10]) ∧
      ∀ r ∈ rows, rowLine r ∈ uniqSortedDataLines rows false := by
  have hperm := jsSort_perm rows
  refine ⟨hperm, rfl, ?_, ?_⟩
  · intro line hline
    have hline' := (mem_dedupAdjacent _).1 hline
    rcases List.mem_map.1 hline' with ⟨r, hr, hrl⟩
    exact ⟨r, hperm.mem_iff.1 hr, hrl.symm⟩
  · intro r hr
    unfold uniqSortedDataLines
    rw [mem_dedupAdjacent]
    exact List.mem_map_of_mem _ (hperm.mem_iff.2 hr)

/-- Witness for C9: a concrete row's plain line is present in the plain
variant's data lines. -/
theorem uniqSortedLines_frame_witness :
    rowLine ⟨[97], [98, 32, 99], []⟩ ∈
      uniqSortedDataLines [⟨[97], [98, 32, 99], []⟩] false :=
  (uniqSortedLines_frame [⟨[97], [98, 32, 99], []⟩] none).2.2.2
    ⟨[97], [98, 32, 99], []⟩ (by decide)

-- Converter lemmas

theorem convert_error_iff (derive : Str → Str) (special : Str → Option Str) (cache : Cache)
    (x : Str) (e : ConvErr) :
    convert derive special cache x = .error e ↔ convErrOf special x = some e := by
  cases x with
  | nil => simp [convert, convErrOf]
  | cons c0 k =>
    by_cases hc : c0 = 33
    · subst hc
      cases hsp : special k with
      | none => simp [convert, convErrOf, hsp]
      | some sub =>
        cases sub with
        | nil => simp [convert, convErrOf, hsp]
        | cons s0 rest =>
          by_cases h62 : s0 = 62
          · subst h62
            simp [convert, convErrOf, hsp]
          · by_cases h61 : s0 = 61
            · subst h61
              simp [convert, convErrOf, hsp]
            · simp [convert, convErrOf, hsp, h62, h61]
    · simp [convert, convErrOf, hc]

theorem normalHandle_idem (derive : Str → Str) (cache : Cache) (x v : Str) (c' : Cache)
    (inv : List Str) (h : normalHandle derive cache x = (v, c', inv)) :
    normalHandle derive c' x = (v, c', []) := by
  unfold normalHandle at h
  cases hl : lookupC x cache with
  | some w =>
    rw [hl] at h
    simp only [Prod.mk.injEq] at h
    obtain ⟨hv, hc, _⟩ := h
    subst hv; subst hc
    unfold normalHandle
    rw [hl]
  | none =>
    rw [hl] at h
    simp only [Prod.mk.injEq] at h
    obtain ⟨hv, hc, _⟩ := h
    subst hv; subst hc
    unfold normalHandle
    rw [show lookupC x ((x, derive x) :: cache) = some (derive x) by simp [lookupC]]

theorem convert_ok_cases (derive : Str → Str) (special : Str → Option Str) (cache : Cache)
    (x v : Str) (c' : Cache) (inv : List Str)
    (h : convert derive special cache x = .ok (v, c', inv)) :
    (inv = [] ∧ c' = cache) ∨
      ∃ d, inv = [d] ∧ lookupC d cache = none ∧ v = derive d ∧
        c' = (d, derive d) :: cache ∧ normalHandle derive cache d = (v, c', inv) := by
  have hnh : ∀ d : Str, normalHandle derive cache d = (v, c', inv) →
      (inv = [] ∧ c' = cache) ∨
        ∃ d0, inv = [d0] ∧ lookupC d0 cache = none ∧ v = derive d0 ∧
          c' = (d0, derive d0) :: cache ∧ normalHandle derive cache d0 = (v, c', inv) := by
    intro d hd
    have hd' := hd
    unfold normalHandle at hd
    cases hl : lookupC d cache with
    | some w =>
      rw [hl] at hd
      simp only [Prod.mk.injEq] at hd
      exact Or.inl ⟨hd.2.2.symm, hd.2.1.symm⟩
    | none =>
      rw [hl] at hd
      simp only [Prod.mk.injEq] at hd
      exact Or.inr ⟨d, hd.2.2.symm, hl, hd.1.symm, hd.2.1.symm, hd'⟩
  cases x with
  | nil =>
    rw [show convert derive special cache [] = .ok (normalHandle derive cache []) from rfl] at h
    exact hnh [] (Except.ok.inj h)
  | cons c0 k =>
    by_cases hc : c0 = 33
    · subst hc
      cases hsp : special k with
      | none => rw [show convert derive special cache (33 :: k) =
          .error (.unhandled (33 :: k)) by simp [convert, hsp]] at h; exact absurd h (by simp)
      | some sub =>
        cases sub with
        | nil => rw [show convert derive special cache (33 :: k) =
            .error (.unhandled (33 :: k)) by simp [convert, hsp]] at h; exact absurd h (by simp)
        | cons s0 rest =>
          by_cases h62 : s0 = 62
          · subst h62
            rw [show convert derive special cache (33 :: k) = .ok (rest, cache, [])
              by simp [convert, hsp]] at h
            have := Except.ok.inj h
            simp only [Prod.mk.injEq] at this
            exact Or.inl ⟨this.2.2.symm, this.2.1.symm⟩
          · by_cases h61 : s0 = 61
            · subst h61
              rw [show convert derive special cache (33 :: k) =
                .ok (normalHandle derive cache rest) by simp [convert, hsp, h62]] at h
              exact hnh rest (Except.ok.inj h)
            · rw [show convert derive special cache (33 :: k) =
                .error (.invalid (33 :: k) (s0 :: rest)) by simp [convert, hsp, h62, h61]] at h
              exact absurd h (by simp)
    · rw [show convert derive special cache (c0 :: k) =
        .ok (normalHandle derive cache (c0 :: k)) by simp [convert, hc]] at h
      exact hnh (c0 :: k) (Except.ok.inj h)

theorem convert_cache_mono (derive : Str → Str) (special : Str → Option Str) (cache : Cache)
    (x v : Str) (c' : Cache) (inv : List Str)
    (h : convert derive special cache x = .ok (v, c', inv)) :
    ∀ k w, lookupC k cache = some w → lookupC k c' = some w := by
  intro k w hk
  rcases convert_ok_cases derive special cache x v c' inv h with ⟨_, hc⟩ | ⟨d, _, hd, _, hc, _⟩
  · rw [hc]; exact hk
  · rw [hc]
    have hkd : k ≠ d := fun he => by rw [he, hd] at hk; exact Option.noConfusion hk
    rw [show lookupC k ((d, derive d) :: cache) = lookupC k cache by simp [lookupC, hkd]]
    exact hk

theorem convert_inv_fresh (derive : Str → Str) (special : Str → Option Str) (cache : Cache)
    (x v : Str) (c' : Cache) (inv : List Str)
    (h : convert derive special cache x = .ok (v, c', inv)) :
    ∀ d ∈ inv, lookupC d cache = none ∧ lookupC d c' ≠ none := by
  intro d hd
  rcases convert_ok_cases derive special cache x v c' inv h with ⟨hi, _⟩ | ⟨d0, hi, hl, _, hc, _⟩
  · rw [hi] at hd; exact absurd hd (by simp)
  · rw [hi] at hd
    have hdd : d = d0 := by simpa using hd
    subst hdd
    refine ⟨hl, ?_⟩
    rw [hc, show lookupC d ((d, derive d) :: cache) = some (derive d) by simp [lookupC]]
    simp

theorem convert_idem (derive : Str → Str) (special : Str → Option Str) (cache : Cache)
    (x v : Str) (c2 : Cache) (i : List Str)
    (h : convert derive special cache x = .ok (v, c2, i)) :
    convert derive special c2 x = .ok (v, c2, []) := by
  cases x with
  | nil =>
    rw [show convert derive special cache [] = .ok (normalHandle derive cache []) from rfl] at h
    rw [show convert derive special c2 [] = .ok (normalHandle derive c2 []) from rfl,
      normalHandle_idem derive cache [] v c2 i (Except.ok.inj h)]
  | cons c0 k =>
    by_cases hc : c0 = 33
    · subst hc
      cases hsp : special k with
      | none =>
        rw [show convert derive special cache (33 :: k) = .error (.unhandled (33 :: k))
          by simp [convert, hsp]] at h
        exact absurd h (by simp)
      | some sub =>
        cases sub with
        | nil =>
          rw [show convert derive special cache (33 :: k) = .error (.unhandled (33 :: k))
            by simp [convert, hsp]] at h
          exact absurd h (by simp)
        | cons s0 rest =>
          by_cases h62 : s0 = 62
          · subst h62
            rw [show convert derive special cache (33 :: k) = .ok (rest, cache, [])
              by simp [convert, hsp]] at h
            have h' := Except.ok.inj h
            simp only [Prod.mk.injEq] at h'
            rw [show convert derive special c2 (33 :: k) = .ok (rest, c2, [])
              by simp [convert, hsp], h'.1]
          · by_cases h61 : s0 = 61
            · subst h61
              rw [show convert derive special cache (33 :: k) =
                .ok (normalHandle derive cache rest) by simp [convert, hsp, h62]] at h
              rw [show convert derive special c2 (33 :: k) =
                .ok (normalHandle derive c2 rest) by simp [convert, hsp, h62],
                normalHandle_idem derive cache rest v c2 i (Except.ok.inj h)]
            · rw [show convert derive special cache (33 :: k) =
                .error (.invalid (33 :: k) (s0 :: rest)) by simp [convert, hsp, h62, h61]] at h
              exact absurd h (by simp)
    · rw [show convert derive special cache (c0 :: k) =
        .ok (normalHandle derive cache (c0 :: k)) by simp [convert, hc]] at h
      rw [show convert derive special c2 (c0 :: k) =
        .ok (normalHandle derive c2 (c0 :: k)) by simp [convert, hc],
        normalHandle_idem derive cache (c0 :: k) v c2 i (Except.ok.inj h)]

theorem convertSeq_abort (derive : Str → Str) (special : Str → Option Str) :
    ∀ (descs : List Str) (cache : Cache),
      (∃ d ∈ descs, convErrOf special d ≠ none) →
      exceptIsOk (convertSeq derive special cache descs) = false := by
  intro descs
  induction descs with
  | nil =>
    intro cache h
    rcases h with ⟨d, hd, _⟩
    exact absurd hd (by simp)
  | cons x xs ih =>
    intro cache h
    cases hcv : convert derive special cache x with
    | error e =>
      rw [show convertSeq derive special cache (x :: xs) = .error e
        by simp [convertSeq, hcv]]
      rfl
    | ok res =>
      obtain ⟨v, c1, i1⟩ := res
      rcases h with ⟨d, hd, hde⟩
      rcases List.mem_cons.1 hd with hdx | hdx
      · exfalso
        subst hdx
        rcases Option.ne_none_iff_exists.1 hde with ⟨e, he⟩
        rw [(convert_error_iff derive special cache d e).2 he.symm] at hcv
        exact Except.noConfusion hcv
      · have hih := ih c1 ⟨d, hdx, hde⟩
        cases hcs : convertSeq derive special c1 xs with
        | error e =>
          rw [show convertSeq derive special cache (x :: xs) = .error e
            by simp [convertSeq, hcv, hcs]]
          rfl
        | ok res2 =>
          rw [hcs] at hih
          exact absurd hih (by simp [exceptIsOk])

/-- C3 on the code is false in one corner: by the JS falsy test `if (!sub)`,
an override key whose instruction is the empty string fails with
"unhandled special 地位", not with "invalid instruction" as the claim
requires for an instruction of neither form. -/
theorem converter_errors_counterexample :
    specialStub [79] = some [] ∧
      convert deriveStub specialStub [] [33, 79] = .error (.unhandled [33, 79]) ∧
      convert deriveStub specialStub [] [33, 79] ≠ .error (.invalid [33, 79] []) := by
  refine ⟨by decide, by decide, by decide⟩

/-- C3 (amended): a marked description `!K` fails with "unhandled special
地位" when `K` is missing from the override table or its instruction is the
empty string, and with "invalid instruction" when its instruction is
nonempty and of neither the `>`-substitute nor the `=`-rewrite form; and a
description sequence containing any failing description never produces a row
list — the whole load aborts with an error. -/
theorem converter_errors (derive : Str → Str) (special : Str → Option Str) (cache : Cache)
    (k sub : Str) (descs : List Str) :
    (special k = none → convert derive special cache (33 :: k) = .error (.unhandled (33 :: k))) ∧
      (special k = some [] →
        convert derive special cache (33 :: k) = .error (.unhandled (33 :: k))) ∧
      (special k = some sub → sub.head? ≠ some 62 → sub.head? ≠ some 61 → sub ≠ [] →
        convert derive special cache (33 :: k) = .error (.invalid (33 :: k) sub)) ∧
      ((∃ d ∈ descs, convErrOf special d ≠ none) →
        exceptIsOk (convertSeq derive special cache descs) = false) := by
  refine ⟨?_, ?_, ?_, convertSeq_abort derive special descs cache⟩
  · intro hk
    simp [convert, hk]
  · intro hk
    simp [convert, hk]
  · intro hk h62 h61 hne
    cases sub with
    | nil => exact absurd rfl hne
    | cons s0 rest =>
      have h62' : s0 ≠ 62 := fun he => h62 (by simp [he])
      have h61' : s0 ≠ 61 := fun he => h61 (by simp [he])
      simp [convert, hk, h62', h61']

/-- Witness for the amended C3: all three error forms and the sequence abort,
discharged on the concrete stub override table. -/
theorem converter_errors_witness :
    convert deriveStub specialStub [] (33 :: [99]) = .error (.unhandled (33 :: [99])) ∧
      convert deriveStub specialStub [] (33 :: [79]) = .error (.unhandled (33 :: [79])) ∧
      convert deriveStub specialStub [] (33 :: [78]) = .error (.invalid (33 :: [78]) [70]) ∧
      exceptIsOk (convertSeq deriveStub specialStub [] [[65], [33, 99]]) = false :=
  ⟨(converter_errors deriveStub specialStub [] [99] [] []).1 (by decide),
    (converter_errors deriveStub specialStub [] [79] [] []).2.1 (by decide),
    (converter_errors deriveStub specialStub [] [78] [70] []).2.2.1 (by decide) (by decide)
      (by decide) (by decide),
    (converter_errors deriveStub specialStub [] [] [] [[65], [33, 99]]).2.2.2
      ⟨[33, 99], by decide, by decide⟩⟩

/-- C4: a `>`-substitute override returns its embedded literal code, leaves
the cache unchanged and never invokes the derivation function; quantified
over every cache state, so repeated conversions behave identically. -/
theorem converter_substitute (derive : Str → Str) (special : Str → Option Str) (cache : Cache)
    (k code : Str) (hk : special k = some (62 :: code)) :
    convert derive special cache (33 :: k) = .ok (code, cache, []) := by
  simp [convert, hk]

/-- Witness for C4 at the concrete stub table (`K` ↦ `>X`). -/
theorem converter_substitute_witness :
    specialStub [75] = some (62 :: [88]) ∧
      convert deriveStub specialStub [] [33, 75] = .ok ([88], [], []) :=
  ⟨by decide, converter_substitute deriveStub specialStub [] [75] [88] (by decide)⟩

/-- C5: an `=`-rewrite override converts exactly as the plain replacement
description does — the same result triple, hence the same value, the same
cache update keyed by the replacement, and the same derive invocations — and
after either conversion both are answered from cache with no further
derive call. -/
theorem converter_rewrite (derive : Str → Str) (special : Str → Option Str) (cache : Cache)
    (k d : Str) (hk : special k = some (61 :: d)) (hd : d.head? ≠ some 33) :
    convert derive special cache (33 :: k) = convert derive special cache d ∧
      ∀ v c' inv, convert derive special cache d = .ok (v, c', inv) →
        convert derive special c' (33 :: k) = .ok (v, c', []) ∧
          convert derive special c' d = .ok (v, c', []) := by
  have hstep : ∀ cc : Cache, convert derive special cc d = .ok (normalHandle derive cc d) := by
    intro cc
    cases d with
    | nil => rfl
    | cons d0 ds =>
      have hd0 : d0 ≠ 33 := fun he => hd (by simp [he])
      simp [convert, hd0]
  constructor
  · rw [show convert derive special cache (33 :: k) = .ok (normalHandle derive cache d)
      by simp [convert, hk], hstep cache]
  · intro v c' inv hok
    rw [hstep cache] at hok
    have hnh := normalHandle_idem derive cache d v c' inv (Except.ok.inj hok)
    refine ⟨?_, ?_⟩
    · rw [show convert derive special c' (33 :: k) = .ok (normalHandle derive c' d)
        by simp [convert, hk], hnh]
    · rw [hstep c', hnh]

/-- Witness for C5 at the concrete stub table (`L` ↦ `=M`). -/
theorem converter_rewrite_witness :
    specialStub [76] = some (61 :: [77]) ∧
      convert deriveStub specialStub [] [33, 76] = convert deriveStub specialStub [] [77] :=
  ⟨by decide, (converter_rewrite deriveStub specialStub [] [76] [77] (by decide) (by decide)).1⟩

/-- C6: across any successful conversion sequence of one converter instance,
the derivation function is invoked at most once per distinct post-rewrite
description (the invocation list has no duplicates and only contains
descriptions absent from the starting cache), the cache only grows (no entry
is removed or overwritten), and repeating a conversion returns the stored
value with no new invocation and no cache change. -/
theorem converter_memoization (derive : Str → Str) (special : Str → Option Str) :
    ∀ (cache : Cache) (xs out : List Str) (c' : Cache) (invs : List Str),
      convertSeq derive special cache xs = .ok (out, c', invs) →
      invs.Nodup ∧
        (∀ k v, lookupC k cache = some v → lookupC k c' = some v) ∧
        (∀ d ∈ invs, lookupC d cache = none) ∧
        ∀ x v c2 i, convert derive special cache x = .ok (v, c2, i) →
          convert derive special c2 x = .ok (v, c2, []) := by
  intro cache xs
  induction xs generalizing cache with
  | nil =>
    intro out c' invs h
    rw [show convertSeq derive special cache [] = .ok ([], cache, []) from rfl] at h
    have h' := Except.ok.inj h
    simp only [Prod.mk.injEq] at h'
    refine ⟨?_, ?_, ?_, fun x v c2 i => convert_idem derive special cache x v c2 i⟩
    · rw [← h'.2.2]; exact List.nodup_nil
    · intro k v hk; rw [← h'.2.1]; exact hk
    · intro d hd; rw [← h'.2.2] at hd; exact absurd hd (by simp)
  | cons x0 xs ih =>
    intro out c' invs h
    cases hcv : convert derive special cache x0 with
    | error e =>
      rw [show convertSeq derive special cache (x0 :: xs) = .error e
        by simp [convertSeq, hcv]] at h
      exact absurd h (by simp)
    | ok res =>
      obtain ⟨v, c1, i1⟩ := res
      cases hcs : convertSeq derive special c1 xs with
      | error e =>
        rw [show convertSeq derive special cache (x0 :: xs) = .error e
          by simp [convertSeq, hcv, hcs]] at h
        exact absurd h (by simp)
      | ok res2 =>
        obtain ⟨vs, c2, i2⟩ := res2
        rw [show convertSeq derive special cache (x0 :: xs) = .ok (v :: vs, c2, i1 ++ i2)
          by simp [convertSeq, hcv, hcs]] at h
        have h' := Except.ok.inj h
        simp only [Prod.mk.injEq] at h'
        obtain ⟨_, hc2, hinv⟩ := h'
        subst hc2
        obtain ⟨ih1, ih2, ih3, _⟩ := ih c1 vs c2 i2 hcs
        have hi1nodup : i1.Nodup := by
          rcases convert_ok_cases derive special cache x0 v c1 i1 hcv with ⟨hi, _⟩ | ⟨d, hi, _⟩
          · rw [hi]; exact List.nodup_nil
          · rw [hi]; exact List.nodup_singleton d
        have hdisj : i1.Disjoint i2 := by
          intro d hd1 hd2
          have hf := (convert_inv_fresh derive special cache x0 v c1 i1 hcv d hd1).2
          exact hf (ih3 d hd2)
        refine ⟨?_, ?_, ?_, fun x v' c2' i' => convert_idem derive special cache x v' c2' i'⟩
        · rw [← hinv]; exact hi1nodup.append ih1 hdisj
        · intro k w hk
          exact ih2 k w (convert_cache_mono derive special cache x0 v c1 i1 hcv k w hk)
        · intro d hd
          rw [← hinv] at hd
          rcases List.mem_append.1 hd with hd | hd
          · exact (convert_inv_fresh derive special cache x0 v c1 i1 hcv d hd).1
          · cases hdc : lookupC d cache with
            | none => rfl
            | some w =>
              exfalso
              have := convert_cache_mono derive special cache x0 v c1 i1 hcv d w hdc
              rw [ih3 d hd] at this
              exact Option.noConfusion this

/-- Witness for C6: a run converting the same description twice, with the
invocation-list conclusion extracted at the concrete result. -/
theorem converter_memoization_witness : ([[65]] : List Str).Nodup :=
  (converter_memoization deriveStub specialStub [] [[65], [65]] [[100, 65], [100, 65]]
    [([65], [100, 65])] [[65]] (by decide)).1

-- Table loader lemmas

theorem splitOnChar_ne_nil (c : Nat) : ∀ s : Str, splitOnChar c s ≠ [] := by
  intro s
  cases s with
  | nil => simp [splitOnChar]
  | cons ch rest =>
    by_cases h : ch = c
    · simp [splitOnChar, h]
    · simp only [splitOnChar, if_neg h]
      cases hsp : splitOnChar c rest with
      | nil => simp
      | cons f fs => simp

theorem splitOnChar_no_sep (c : Nat) : ∀ s : Str, c ∉ s → splitOnChar c s = [s] := by
  intro s
  induction s with
  | nil => intro _; rfl
  | cons ch rest ih =>
    intro h
    have hch : ch ≠ c := fun he => h (List.mem_cons.2 (Or.inl he.symm))
    have h2 : splitOnChar c rest = [rest] := ih fun hm => h (List.mem_cons_of_mem _ hm)
    simp [splitOnChar, hch, h2]

theorem splitOnChar_first (c : Nat) : ∀ s : Str, c ∈ s →
    splitOnChar c s =
      s.takeWhile (· ≠ c) :: splitOnChar c ((s.dropWhile (· ≠ c)).drop 1) := by
  intro s
  induction s with
  | nil => intro h; simp at h
  | cons ch rest ih =>
    intro h
    by_cases hch : ch = c
    · subst hch
      simp [splitOnChar, List.takeWhile_cons, List.dropWhile_cons]
    · have hrest : c ∈ rest := by
        rcases List.mem_cons.1 h with h' | h'
        · exact absurd h'.symm hch
        · exact h'
      have h2 := ih hrest
      have hpred : (decide (ch ≠ c)) = true := by simp [hch]
      rw [show (ch :: rest).takeWhile (· ≠ c) = ch :: rest.takeWhile (· ≠ c) by
          simp [List.takeWhile_cons, hch],
        show (ch :: rest).dropWhile (· ≠ c) = rest.dropWhile (· ≠ c) by
          simp [List.dropWhile_cons, hch]]
      simp only [splitOnChar, if_neg hch, h2]

/-- C10: a line with no tab character (the empty line included) makes
`loadTsv` throw — splitting on tabs yields a single field, `input` is
`undefined`, and `input.split(" ")` fails — so no row is produced; and any
row it does yield has at least two fields. -/
theorem loadTsv_malformed_line (conv : Str → Str) (line : Str) :
    ((9 : Nat) ∉ line → processLine conv line = none) ∧
      ∀ r, processLine conv line = some r → 2 ≤ (fieldsOf r).length := by
  constructor
  · intro h
    unfold processLine
    rw [splitOnChar_no_sep 9 line h]
  · intro r _
    unfold fieldsOf
    simp only [List.length_cons]
    omega

/-- Witness for C10: the empty line has no tab and is rejected. -/
theorem loadTsv_malformed_line_witness : processLine deriveStub [] = none :=
  (loadTsv_malformed_line deriveStub []).1 (by decide)

/-- C8: for lines each containing a tab, the loader yields one row per line
in order, whose word is the text before the first tab, whose extra fields
are the remaining tab-separated fields verbatim, and whose codes field is
the space-join of the converter applied to each space-separated description
of the input field. -/
theorem loadTsv_wellformed (conv : Str → Str) (lines : List Str)
    (h : ∀ l ∈ lines, (9 : Nat) ∈ l) :
    loadTsvLines conv lines = some (lines.map (specRowOf conv)) := by
  induction lines with
  | nil => rfl
  | cons l ls ih =>
    have hl : (9 : Nat) ∈ l := h l (by simp)
    have hpl : processLine conv l = some (specRowOf conv l) := by
      unfold processLine specRowOf
      rw [splitOnChar_first 9 l hl]
      cases hsp : splitOnChar 9 ((l.dropWhile (· ≠ 9)).drop 1) with
      | nil => exact absurd hsp (splitOnChar_ne_nil 9 _)
      | cons r0 rtail => simp
    have hls := ih fun x hx => h x (List.mem_cons_of_mem _ hx)
    simp [loadTsvLines, hpl, hls]

/-- Witness for C8: a concrete line `"a\tb c"` loaded with a stub converter. -/
theorem loadTsv_wellformed_witness :
    loadTsvLines deriveStub [[97, 9, 98, 32, 99]] =
      some ([[97, 9, 98, 32, 99]].map (specRowOf deriveStub)) :=
  loadTsv_wellformed deriveStub [[97, 9, 98, 32, 99]] (by decide)
